import Mathlib

/-!
A shallow embedding of the gowatch watcher (trigger.go, config.go, watcher.go)
together with proofs about its path-matching, validation, debouncing and
dispatch logic.

Strings are modelled by Lean `String`; the Go string helpers used by the
watcher (`strings.HasPrefix`, `strings.HasSuffix`, `strings.ContainsRune`,
`strings.SplitN`) are embedded as executable functions over `String.data`.

The filesystem-dependent primitives (`doublestar.Glob` and `os.Stat`-based
`isDir`) are parameters of the embedding, collected in a `FileSystem` oracle:
the Go code consults the real disk there, so every theorem quantifies over
the oracle or fixes a small concrete one.
-/

namespace Gowatch

/-- Splits a character list at every occurrence of `c`; mirrors the splitting
underlying Go's `strings.SplitN` / `strings.Split`. -/
def splitOnChar (c : Char) : List Char → List (List Char)
  | [] => [[]]
  | x :: xs =>
    match splitOnChar c xs with
    | [] => [[]]
    | y :: ys => if x = c then [] :: y :: ys else (x :: y) :: ys

/-- Embeds Go `strings.HasPrefix s pre`: `pre` is a leading substring of `s`. -/
def strStartsWith (s pre : String) : Bool := pre.data.isPrefixOf s.data

/-- Embeds Go `strings.HasSuffix s suf`: `suf` is a trailing substring of `s`. -/
def strEndsWith (s suf : String) : Bool := suf.data.isSuffixOf s.data

/-- Embeds Go `strings.ContainsRune s c`. -/
def strContains (s : String) (c : Char) : Bool := s.data.contains c

/-- Embeds `filepath.IsAbs` for slash-separated (unix) paths. -/
def isAbs (p : String) : Bool := strStartsWith p "/"

/-- Embeds Go `filepath.Dir` on cleaned slash-separated paths (the only paths
the watcher produces): everything before the final separator, `/` at the
root, `.` when there is no separator. -/
def filepathDir (p : String) : String :=
  match (splitOnChar '/' p.data).dropLast with
  | [] => "."
  | [[]] => "/"
  | cs => String.mk (List.intercalate ['/'] cs)

/-- Embeds Go `path.Join root p` (join then `Clean`) for inputs without `..`
components: empty and `.` components collapse, the root's leading slash is
kept. -/
def pathJoin (root p : String) : String :=
  let joined := root.data ++ '/' :: p.data
  let comps := (splitOnChar '/' joined).filter (fun c => !c.isEmpty && c ≠ ['.'])
  String.mk ((if isAbs root then ['/'] else []) ++ List.intercalate ['/'] comps)

/-- The filesystem oracle: `glob` is `doublestar.Glob` (errors discarded, as in
`expandPatterns`), and `dirs` is the set of paths `os.Stat` reports as
directories (`isDir` in trigger.go). -/
structure FileSystem where
  glob : String → List String
  dirs : List String

/-- Embeds `isDir` from trigger.go: `os.Stat` succeeded and reported a
directory. -/
def FileSystem.isDir (fs : FileSystem) (p : String) : Bool := fs.dirs.contains p

/-- Embeds the `FileTrigger` struct from trigger.go. -/
structure FileTrigger where
  Include : List String
  Exclude : List String
  Triggers : List String

/-- Embeds the `Config` struct from config.go; the Go `map[string]string`
fields are modelled as association lists (`map` iteration order is
unspecified in Go, so no theorem below depends on the list order). -/
structure Config where
  Actions : List (String × String)
  Services : List (String × String)
  StartupSteps : List String
  FileTriggers : List FileTrigger

/-- Embeds the `Watcher` struct from watcher.go (the fields the matching and
validation logic reads). -/
structure Watcher where
  Directory : String
  Config : Config

/-- Embeds `makeAbsolute` from trigger.go. -/
def makeAbsolute (root : String) (patterns : List String) : List String :=
  patterns.map (fun p =>
    if isAbs p then p
    else
      let absPath := pathJoin root p
      if strEndsWith p "/" then absPath ++ "/" else absPath)

/-- Embeds the `getAbsolutePatterns` closure of `findAbsolutes` in
trigger.go. -/
def getAbsolutePatterns (l : List String) : List String := l.filter (fun i => isAbs i)

/-- Embeds the `expandPatterns` closure of `findAbsolutes` in trigger.go: glob
each pattern, keeping only directories when the pattern ends in `/`. -/
def expandPatterns (fs : FileSystem) : List String → List String
  | [] => []
  | i :: rest =>
    let mm := fs.glob i
    (if strEndsWith i "/" then mm.filter (fun m => fs.isDir m) else mm)
      ++ expandPatterns fs rest

/-- Embeds the `substr` closure of `findAbsolutes` in trigger.go: some element
of `strs` is a leading substring of `str`. -/
def substr (str : String) (strs : List String) : Bool :=
  strs.any (fun e => strStartsWith str e)

/-- Embeds the `diff` closure of `findAbsolutes` in trigger.go: keep the
include matches that are not exclude matches and have no exclude match as a
leading substring. -/
def diff (inc exc : List String) : List String :=
  inc.filter (fun i => !(exc.contains i) && !(substr i exc))

/-- Embeds `findAbsolutes` from trigger.go. -/
def findAbsolutes (fs : FileSystem) (inc exc : List String) : List String :=
  diff (expandPatterns fs (getAbsolutePatterns inc))
       (expandPatterns fs (getAbsolutePatterns exc))

/-- Embeds `FileTrigger.watchedPaths` from trigger.go. -/
def FileTrigger.watchedPaths (fs : FileSystem) (t : FileTrigger) (root : String) : List String :=
  if t.Triggers = [] then []
  else findAbsolutes fs (makeAbsolute root t.Include) (makeAbsolute root t.Exclude)

/-- Embeds `FileTrigger.Matches` from trigger.go: the path itself or its
containing directory is among the rule's watched paths. -/
def FileTrigger.Matches (fs : FileSystem) (t : FileTrigger) (root p : String) : Bool :=
  let dir := if fs.isDir p then p else filepathDir p
  (FileTrigger.watchedPaths fs t root).any (fun w => w == p || w == dir)

/-- Accumulator loop of `uniqueStringSliceOrdered` in watcher.go: append each
element not already in the output. -/
def uniqueOrderedAux (output : List String) : List String → List String
  | [] => output
  | i :: rest =>
    if output.contains i then uniqueOrderedAux output rest
    else uniqueOrderedAux (output ++ [i]) rest

/-- Embeds `uniqueStringSliceOrdered` from watcher.go: first-occurrence
deduplication, retaining order. -/
def uniqueStringSliceOrdered (input : List String) : List String :=
  uniqueOrderedAux [] input

/-- Embeds `uniqueStringSlice` from watcher.go. The Go version collects the
distinct elements through a map, so its output order is unspecified; the
model fixes first-occurrence order, and no theorem below relies on the order
this function produces. -/
def uniqueStringSlice (input : List String) : List String :=
  uniqueOrderedAux [] input

/-- Embeds `Watcher.MatchingTriggers` from watcher.go: `none` models the
non-absolute-path error; otherwise the rules (in declaration order) whose
watch set covers the path. -/
def Watcher.MatchingTriggers (fs : FileSystem) (w : Watcher) (path : String) :
    Option (List FileTrigger) :=
  if isAbs path then
    some (w.Config.FileTriggers.filter (fun t => t.Matches fs w.Directory path))
  else none

/-- The inner loops of `triggersForFiles` in watcher.go: flatten the matched
rules' trigger-name lists in rule order. -/
def flattenRuleTriggers : List FileTrigger → List String
  | [] => []
  | m :: rest => m.Triggers ++ flattenRuleTriggers rest

/-- One iteration of the outer loop of `triggersForFiles`: the trigger names
contributed by a single changed file (an error from `MatchingTriggers` is
logged and contributes nothing). -/
def triggersForFile (fs : FileSystem) (w : Watcher) (file : String) : List String :=
  match Watcher.MatchingTriggers fs w file with
  | some matching => flattenRuleTriggers matching
  | none => []

/-- The outer loop of `triggersForFiles`: concatenate the contributions of the
changed files in batch order. -/
def flattenFileTriggers (fs : FileSystem) (w : Watcher) : List String → List String
  | [] => []
  | file :: rest => triggersForFile fs w file ++ flattenFileTriggers fs w rest

/-- Embeds `Watcher.triggersForFiles` from watcher.go (the spec's
`triggersForChangedPaths`). -/
def Watcher.triggersForFiles (fs : FileSystem) (w : Watcher) (files : List String) :
    List String :=
  uniqueStringSliceOrdered (flattenFileTriggers fs w files)

/-- Embeds `fixDirectories` (directory_fix_linux.go) outside a Docker
container: `detectDocker()` is false, so the input list is returned
unchanged. The Docker/osxfs branch is the platform-specific mount-namespace
workaround, a pure input-list transform appending parent directories. -/
def fixDirectories (input : List String) : List String := input

/-- Embeds `getDirs` from trigger.go: each path replaced by its containing
directory unless it already is one, then passed through `fixDirectories`. -/
def getDirs (fs : FileSystem) (paths : List String) : List String :=
  fixDirectories (paths.map (fun p => if fs.isDir p then p else filepathDir p))

/-- The containing directory a path is filed under by `reducePaths` in
watcher.go: the path itself when it is a directory, its `filepath.Dir`
otherwise. -/
def dirOf (fs : FileSystem) (i : String) : String :=
  if fs.isDir i then i else filepathDir i

/-- One step of the grouping loop of `reducePaths`: append `i` to the group
keyed `d`, creating the group if absent. -/
def insertGroup : List (String × List String) → String → String → List (String × List String)
  | [], d, i => [(d, [i])]
  | (k, v) :: rest, d, i =>
    if k = d then (k, v ++ [i]) :: rest else (k, v) :: insertGroup rest d i

/-- The grouping map `m` built by the first loop of `reducePaths` in
watcher.go, modelled as an association list keyed in first-insertion order
(Go map iteration order is unspecified; no theorem below relies on the order
of the groups). -/
def buildGroups (fs : FileSystem) (input : List String) : List (String × List String) :=
  input.foldl (fun m i => insertGroup m (dirOf fs i) i) []

/-- Embeds `reducePaths` from watcher.go: a group of more than one path
collapses to its directory key, a singleton group keeps its path (`v.headD`
models the Go `v[0]`; every group is nonempty by construction). -/
def reducePaths (fs : FileSystem) (input : List String) : List String :=
  (buildGroups fs input).map (fun g => if 1 < g.2.length then g.1 else g.2.headD "")

/-- The loop of `Watcher.WatchedPaths` in watcher.go: concatenate the watched
paths of every file-trigger rule. -/
def flattenWatched (fs : FileSystem) (root : String) : List FileTrigger → List String
  | [] => []
  | ft :: rest => FileTrigger.watchedPaths fs ft root ++ flattenWatched fs root rest

/-- Embeds `Watcher.WatchedPaths` from watcher.go. -/
def Watcher.WatchedPaths (fs : FileSystem) (w : Watcher) : List String :=
  reducePaths fs (uniqueStringSlice (flattenWatched fs w.Directory w.Config.FileTriggers))

/-- Embeds `Watcher.parseTriggerName` from watcher.go
(`strings.SplitN(orig, ":", 2)`): the name before the first `:` and the verb
after it (empty when there is none). -/
def parseTriggerName (orig : String) : String × String :=
  match splitOnChar ':' orig.data with
  | [] => (orig, "")
  | [_] => (orig, "")
  | t :: rest => (String.mk t, String.mk (List.intercalate [':'] rest))

/-- Some key of `Config.Actions` equals `name` (the lookup loops of
validateTriggerNames / validateServiceUniqueness, and the `w.files` lookup of
`Run`, whose keys `compileFiles` copies from `Config.Actions`). -/
def actionDefined (c : Config) (name : String) : Bool :=
  c.Actions.any (fun a => a.1 == name)

/-- Some key of `Config.Services` equals `name` (the `w.services` lookup;
`compileServices` keys it by `Config.Services`). -/
def serviceDefined (c : Config) (name : String) : Bool :=
  c.Services.any (fun s => s.1 == name)

/-- The `allTriggers` list built at the top of `validateTriggerNames`:
startup steps followed by every rule's trigger names. -/
def Config.allTriggers (c : Config) : List String :=
  c.StartupSteps ++ flattenRuleTriggers c.FileTriggers

/-- The payload of the errors returned by the three validators in watcher.go
(Go formats these lists into error strings; the model keeps the list). -/
inductive ValidationError where
  | unresolvedTriggers (names : List String)
  | duplicateDefinitions (names : List String)
  | invalidNames (names : List String)
deriving DecidableEq

/-- The `invalidTriggers` list built by `validateTriggerNames` in watcher.go:
for each distinct referenced trigger, its verb is stripped and the base name
is collected when it is defined neither as an action nor as a service. -/
def unresolvedTriggerList (c : Config) : List String :=
  ((uniqueStringSlice (Config.allTriggers c)).map (fun t => (parseTriggerName t).1)).filter
    (fun base => !actionDefined c base && !serviceDefined c base)

/-- Embeds `validateTriggerNames` from watcher.go (the singular/plural error
messages share the same payload). -/
def validateTriggerNames (c : Config) : Option ValidationError :=
  if unresolvedTriggerList c = [] then none
  else some (.unresolvedTriggers (unresolvedTriggerList c))

/-- The `invalidServices` list built by `validateServiceUniqueness` in
watcher.go: service names that are also action names, deduplicated. -/
def dupDefinitionList (c : Config) : List String :=
  uniqueStringSliceOrdered ((c.Services.map Prod.fst).filter (fun s => actionDefined c s))

/-- Embeds `validateServiceUniqueness` from watcher.go. -/
def validateServiceUniqueness (c : Config) : Option ValidationError :=
  if dupDefinitionList c = [] then none
  else some (.duplicateDefinitions (dupDefinitionList c))

/-- The `invalid` list built by `validateActionNames` in watcher.go: action
then service names containing `:`, deduplicated. -/
def invalidNameList (c : Config) : List String :=
  uniqueStringSlice
    ((c.Actions.map Prod.fst).filter (fun a => strContains a ':')
      ++ (c.Services.map Prod.fst).filter (fun s => strContains s ':'))

/-- Embeds `validateActionNames` from watcher.go. -/
def validateActionNames (c : Config) : Option ValidationError :=
  if invalidNameList c = [] then none
  else some (.invalidNames (invalidNameList c))

/-- Embeds `Watcher.Validate` from watcher.go: the three validators run in
order and the first error is returned. -/
def Config.Validate (c : Config) : Option ValidationError :=
  match validateTriggerNames c with
  | some e => some e
  | none =>
    match validateServiceUniqueness c with
    | some e => some e
    | none => validateActionNames c

/-- The possible resolutions of `Watcher.Run` in watcher.go. `ranAction`,
`stoppedService` and `ranService` model reaching `runAction`, `stopService`
and `runService` (the scripts themselves are external runnables);
`verbNotSupported` and `notFound` model the errors `Run` returns without
executing anything. -/
inductive RunOutcome where
  | ranAction (name : String)
  | ranService (name : String)
  | stoppedService (name : String)
  | verbNotSupported (verb : String)
  | notFound (name : String)
deriving DecidableEq

/-- Embeds the trigger-resolution branching of `Watcher.Run` in watcher.go:
parse the optional verb, try the compiled actions, then the compiled
services, handling the `stop` verb and rejecting any other verb. -/
def Watcher.Run (w : Watcher) (trigger : String) : RunOutcome :=
  let parsed := parseTriggerName trigger
  if actionDefined w.Config parsed.1 then
    if parsed.2 ≠ "" then .verbNotSupported parsed.2
    else .ranAction parsed.1
  else if serviceDefined w.Config parsed.1 then
    if parsed.2 == "stop" then .stoppedService parsed.1
    else if parsed.2 ≠ "" then .verbNotSupported parsed.2
    else .ranService parsed.1
  else .notFound parsed.1

/-- What `w.Run` returns for a trigger at dispatch time, as observed by the
loop of `handleFilesChanged`: success, `context.Canceled`, or another
error. Execution is external, so it is an oracle parameter. -/
inductive RunResult where
  | ok
  | canceled
  | failed
deriving DecidableEq

/-- Embeds the loop of `handleFilesChanged` in watcher.go, returning the
triggers on which `Run` was invoked, in order: the context is checked before
each trigger (`ctxDone n` at the n-th iteration), a non-cancellation error
breaks the loop (`break outer`), and a cancellation result is reported but
the loop continues. -/
def execTriggers (ctxDone : Nat → Bool) (res : String → RunResult) :
    Nat → List String → List String
  | _, [] => []
  | n, t :: rest =>
    if ctxDone n then []
    else
      match res t with
      | .failed => [t]
      | _ => t :: execTriggers ctxDone res (n + 1) rest

/-- Embeds `Watcher.handleFilesChanged` from watcher.go: resolve the batch to
its trigger list and run it under `execTriggers`. -/
def Watcher.handleFilesChanged (fs : FileSystem) (w : Watcher) (ctxDone : Nat → Bool)
    (res : String → RunResult) (files : List String) : List String :=
  execTriggers ctxDone res 0 (Watcher.triggersForFiles fs w files)

/-- The operation kind of a raw fsnotify event: the watch loop discards
`Chmod` and batches everything else. -/
inductive FsOp where
  | chmod
  | other
deriving DecidableEq

/-- A raw fsnotify event (`ev.Op`, `ev.Name`). -/
structure FsEvent where
  Op : FsOp
  Name : String

/-- One arrival on the `select` of `watchLoop` in watcher.go: a raw event, or
the 250ms flush timer firing. A `timerFires` input in a trace models real
time passing 250ms after the event that armed the timer; later events in the
trace before the next `timerFires` arrived inside that window. -/
inductive LoopInput where
  | event (e : FsEvent)
  | timerFires

/-- The state of `watchLoop` in watcher.go: the `eventsBuffer`, whether
`flushTimer` is non-nil, and (as the observable output) the list of batches
handed to `handleFilesChanged`, in dispatch order. -/
structure LoopState where
  eventsBuffer : List String
  timerArmed : Bool
  dispatches : List (List String)

/-- The initial `watchLoop` state: empty buffer, nil timer. -/
def initLoopState : LoopState := ⟨[], false, []⟩

/-- Embeds one iteration of the `select` loop of `watchLoop` in watcher.go:
a chmod event is dropped; any other event is appended to the buffer and arms
the flush timer only if it is not already armed; a timer fire discards a
batch that resolves to no triggers, and otherwise dispatches the buffered
batch (cancelling the previous dispatch) and clears buffer and timer. A nil
timer never fires, so `timerFires` on an unarmed state leaves it unchanged. -/
def watchLoopStep (fs : FileSystem) (w : Watcher) (s : LoopState) : LoopInput → LoopState
  | .event e =>
    if e.Op = .chmod then s
    else { s with eventsBuffer := s.eventsBuffer ++ [e.Name], timerArmed := true }
  | .timerFires =>
    if s.timerArmed = false then s
    else if Watcher.triggersForFiles fs w s.eventsBuffer = [] then
      { s with eventsBuffer := [], timerArmed := false }
    else
      { eventsBuffer := [], timerArmed := false,
        dispatches := s.dispatches ++ [s.eventsBuffer] }

/-- Runs `watchLoop` over a trace of arrivals. -/
def watchLoopRun (fs : FileSystem) (w : Watcher) (s : LoopState)
    (inputs : List LoopInput) : LoopState :=
  inputs.foldl (watchLoopStep fs w) s

/-- The per-tick loop of `reloadPatterns` inside `watchForNewPatterns` in
watcher.go: walk the latest resolved paths, collecting those not yet in
`watchedMap` as `addedPaths` and recording every one in the map. Returns
`(addedPaths, updated watched set)`. -/
def reloadAux (watched : List String) : List String → List String × List String
  | [] => ([], watched)
  | p :: rest =>
    if watched.contains p then reloadAux watched rest
    else
      (p :: (reloadAux (watched ++ [p]) rest).1, (reloadAux (watched ++ [p]) rest).2)

/-- Embeds the 1-second tick loop of `watchForNewPatterns`: each tick
re-resolves `WatchedPaths` against the then-current filesystem and folds it
into the watched set (registration of the added paths' directories with
fsnotify is a side effect driven purely by each tick's `addedPaths`). -/
def maintainerRun (w : Watcher) (watched : List String) : List FileSystem → List String
  | [] => watched
  | fs :: rest => maintainerRun w (reloadAux watched (Watcher.WatchedPaths fs w)).2 rest

/-- Spec-side notion, modelled from the spec's words for comparison with the
code: `e` is a path-prefix of `i`, i.e. `i` equals `e` or lies beneath the
directory `e` (the comparison crosses a `/` boundary). The code's `substr`
uses a plain leading-substring test instead. -/
def specPathPrefixOf (e i : String) : Bool :=
  e == i || strStartsWith i (if strEndsWith e "/" then e else e ++ "/")

/-- A filesystem for the two-rule fixture: the project root `/r` holds
directories `a` and `b`; the include patterns `/r/a` and `/r/b` are literal,
so `doublestar.Glob` returns the existing path itself. -/
def glob1 (p : String) : List String :=
  if p = "/r/a" then ["/r/a"] else if p = "/r/b" then ["/r/b"] else []

/-- The fixture filesystem built on `glob1`. -/
def fs1 : FileSystem := ⟨glob1, ["/r", "/r/a", "/r/b"]⟩

/-- First declared rule: include `a`, triggers `x` then `y`. -/
def rule1 : FileTrigger := ⟨["a"], [], ["x", "y"]⟩

/-- Second declared rule: include `b`, triggers `y` then `z`. -/
def rule2 : FileTrigger := ⟨["b"], [], ["y", "z"]⟩

/-- The two-rule watcher of the trigger-resolution claims. -/
def w1 : Watcher := ⟨"/r", ⟨[], [], [], [rule1, rule2]⟩⟩

/-- A filesystem where the file `/r/ven` exists next to the directory
`/r/vendor`: both literal patterns glob to themselves. -/
def glob2 (p : String) : List String :=
  if p = "/r/vendor" then ["/r/vendor"] else if p = "/r/ven" then ["/r/ven"] else []

/-- The fixture filesystem built on `glob2`. -/
def fs2 : FileSystem := ⟨glob2, ["/r", "/r/vendor"]⟩

/-- A filesystem for the vendor-exclusion fixture: `/r/**` expands to the
tree under `/r`, and the directory-only pattern `/r/vendor/` globs to
itself. -/
def glob2b (p : String) : List String :=
  if p = "/r/**" then ["/r/a.go", "/r/vendor", "/r/vendor/x.go", "/r/vendor/sub/y.go"]
  else if p = "/r/vendor/" then ["/r/vendor/"] else []

/-- The fixture filesystem built on `glob2b`. -/
def fs2b : FileSystem := ⟨glob2b, ["/r", "/r/vendor", "/r/vendor/", "/r/vendor/sub"]⟩

/-- A filesystem where `/r/src` and `/r/pkg` are directories and everything
else is a file; no glob patterns are consulted. -/
def fs3 : FileSystem := ⟨fun _ => [], ["/r", "/r/src", "/r/pkg"]⟩

/-- A configuration whose only violation is the unresolved startup trigger
`missing`. -/
def cfg4a : Config := ⟨[], [], ["missing"], []⟩

/-- A configuration with two violations of different categories: the
unresolved startup trigger `missing` and the action name `a:b` containing
the separator. -/
def cfg4b : Config := ⟨[("a:b", "s")], [], ["missing"], []⟩

/-- A configuration whose file trigger references `build:stop`, a verb suffix
on the action `build`. -/
def cfg5 : Config := ⟨[("build", "s")], [], [], [⟨["a"], [], ["build:stop"]⟩]⟩

/-- The watcher running `cfg5`. -/
def w5 : Watcher := ⟨"/r", cfg5⟩

/-- A rule with include patterns but an empty trigger list. -/
def rule10 : FileTrigger := ⟨["a"], [], []⟩

/-- The dispatch-time run results of the abort-on-failure fixture: trigger
`a` fails with a non-cancellation error, everything else succeeds. -/
def res7 (t : String) : RunResult := if t = "a" then .failed else .ok

/-- The raw-event inputs corresponding to a list of changed paths: each is a
non-chmod fsnotify event carrying that path. -/
def eventInputs (names : List String) : List LoopInput :=
  names.map (fun n => .event ⟨.other, n⟩)

/-! ## Helper lemmas about the deduplication and flattening loops -/

theorem mem_uniqueOrderedAux (acc l : List String) (a : String) :
    a ∈ uniqueOrderedAux acc l ↔ a ∈ acc ∨ a ∈ l := by
  induction l generalizing acc with
  | nil => simp [uniqueOrderedAux]
  | cons i rest ih =>
    simp only [uniqueOrderedAux]
    by_cases h : acc.contains i = true
    · have h' : i ∈ acc := by simpa using h
      rw [if_pos h, ih]
      constructor
      · rintro (ha | ha)
        · exact Or.inl ha
        · exact Or.inr (List.mem_cons_of_mem _ ha)
      · rintro (ha | ha)
        · exact Or.inl ha
        · rcases List.mem_cons.mp ha with rfl | ha
          · exact Or.inl h'
          · exact Or.inr ha
    · rw [if_neg h, ih]
      simp only [List.mem_append, List.mem_singleton, List.mem_cons]
      tauto

theorem uniqueOrderedAux_append (acc l m : List String) :
    uniqueOrderedAux acc (l ++ m) = uniqueOrderedAux (uniqueOrderedAux acc l) m := by
  induction l generalizing acc with
  | nil => simp [uniqueOrderedAux]
  | cons i rest ih =>
    simp only [List.cons_append, uniqueOrderedAux]
    by_cases h : acc.contains i = true
    · rw [if_pos h, if_pos h]
      exact ih acc
    · rw [if_neg h, if_neg h]
      exact ih (acc ++ [i])

theorem uniqueOrderedAux_absorb (acc m : List String) (h : ∀ a ∈ m, a ∈ acc) :
    uniqueOrderedAux acc m = acc := by
  induction m with
  | nil => rfl
  | cons i rest ih =>
    have hi : acc.contains i = true := by
      simpa using h i (List.mem_cons_self i rest)
    simp only [uniqueOrderedAux, if_pos hi]
    exact ih (fun a ha => h a (List.mem_cons_of_mem _ ha))

theorem uniqueOrderedAux_eq_nil (l : List String) :
    uniqueOrderedAux [] l = [] ↔ l = [] := by
  constructor
  · intro h
    by_contra hne
    rcases List.exists_mem_of_ne_nil l hne with ⟨a, ha⟩
    have : a ∈ uniqueOrderedAux [] l := (mem_uniqueOrderedAux [] l a).mpr (Or.inr ha)
    rw [h] at this
    exact List.not_mem_nil a this
  · rintro rfl
    rfl

theorem flattenFileTriggers_append (fs : FileSystem) (w : Watcher) (l₁ l₂ : List String) :
    flattenFileTriggers fs w (l₁ ++ l₂)
      = flattenFileTriggers fs w l₁ ++ flattenFileTriggers fs w l₂ := by
  induction l₁ with
  | nil => simp [flattenFileTriggers]
  | cons f rest ih => simp [flattenFileTriggers, ih]

theorem flattenWatched_append (fs : FileSystem) (root : String) (l₁ l₂ : List FileTrigger) :
    flattenWatched fs root (l₁ ++ l₂)
      = flattenWatched fs root l₁ ++ flattenWatched fs root l₂ := by
  induction l₁ with
  | nil => simp [flattenWatched]
  | cons t rest ih => simp [flattenWatched, ih]

/-! ## C8: idempotence of trigger resolution under path duplication -/

/-- C8: `triggersForChangedPaths` is idempotent under path duplication: a
batch containing the changed path `p` twice resolves to the same ordered
trigger list as the batch containing `p` once (at either position, for any
watcher and filesystem). -/
theorem triggersForFiles_dup (fs : FileSystem) (w : Watcher)
    (l₁ l₂ l₃ : List String) (p : String) :
    Watcher.triggersForFiles fs w (l₁ ++ p :: l₂ ++ p :: l₃)
      = Watcher.triggersForFiles fs w (l₁ ++ p :: l₂ ++ l₃) := by
  have key : ∀ A X B : List String, (∀ a ∈ X, a ∈ A) →
      uniqueOrderedAux [] (A ++ (X ++ B)) = uniqueOrderedAux [] (A ++ B) := by
    intro A X B hX
    have habs : uniqueOrderedAux (uniqueOrderedAux [] A) X = uniqueOrderedAux [] A :=
      uniqueOrderedAux_absorb _ _
        (fun a ha => (mem_uniqueOrderedAux [] A a).mpr (Or.inr (hX a ha)))
    calc uniqueOrderedAux [] (A ++ (X ++ B))
        = uniqueOrderedAux (uniqueOrderedAux (uniqueOrderedAux [] A) X) B := by
          rw [uniqueOrderedAux_append, uniqueOrderedAux_append]
      _ = uniqueOrderedAux (uniqueOrderedAux [] A) B := by rw [habs]
      _ = uniqueOrderedAux [] (A ++ B) := (uniqueOrderedAux_append [] A B).symm
  unfold Watcher.triggersForFiles uniqueStringSliceOrdered
  have h1 : flattenFileTriggers fs w (l₁ ++ p :: l₂ ++ p :: l₃)
      = flattenFileTriggers fs w (l₁ ++ p :: l₂)
        ++ (triggersForFile fs w p ++ flattenFileTriggers fs w l₃) := by
    rw [show l₁ ++ p :: l₂ ++ p :: l₃ = (l₁ ++ p :: l₂) ++ (p :: l₃) from by simp,
        flattenFileTriggers_append]
    rfl
  have h2 : flattenFileTriggers fs w (l₁ ++ p :: l₂ ++ l₃)
      = flattenFileTriggers fs w (l₁ ++ p :: l₂) ++ flattenFileTriggers fs w l₃ := by
    rw [show l₁ ++ p :: l₂ ++ l₃ = (l₁ ++ p :: l₂) ++ l₃ from by simp,
        flattenFileTriggers_append]
  rw [h1, h2]
  apply key
  intro a ha
  rw [flattenFileTriggers_append]
  refine List.mem_append.mpr (Or.inr ?_)
  show a ∈ triggersForFile fs w p ++ flattenFileTriggers fs w l₂
  exact List.mem_append.mpr (Or.inl ha)

/-! ## C7: a non-cancellation failure aborts the rest of the dispatch -/

/-- C7: in the loop of `handleFilesChanged`, once a trigger's run returns a
non-cancellation error, no later trigger of the dispatched list is executed:
whatever the context does, the executed triggers form a prefix of the part
of the list up to and including the first failing trigger. -/
theorem execTriggers_abort (ctxDone : Nat → Bool) (res : String → RunResult)
    (pre post : List String) (a : String) (ha : res a = .failed) :
    ∀ n, execTriggers ctxDone res n (pre ++ a :: post) <+: pre ++ [a] := by
  induction pre with
  | nil =>
    intro n
    simp only [List.nil_append, execTriggers]
    by_cases h : ctxDone n = true
    · rw [if_pos h]
      exact List.nil_prefix
    · rw [if_neg h, ha]
  | cons t rest ih =>
    intro n
    simp only [List.cons_append, execTriggers]
    by_cases h : ctxDone n = true
    · rw [if_pos h]
      exact List.nil_prefix
    · rw [if_neg h]
      cases hres : res t with
      | failed => exact ⟨rest ++ [a], by simp⟩
      | ok =>
        rcases ih (n + 1) with ⟨tail, htail⟩
        exact ⟨tail, by simp [htail]⟩
      | canceled =>
        rcases ih (n + 1) with ⟨tail, htail⟩
        exact ⟨tail, by simp [htail]⟩

/-- Witness for C7: in the dispatched sequence `[a, b]` where running `a`
fails, the executed triggers are a prefix of `[a]`, so `b` never runs
(concretely, `execTriggers` evaluates to `[a]` there). -/
theorem execTriggers_abort_witness :
    execTriggers (fun _ => false) res7 0 ["a", "b"] <+: ["a"] := by
  have h := execTriggers_abort (fun _ => false) res7 [] ["b"] "a" (by decide) 0
  simpa using h

end Gowatch

namespace Gowatch

/-! ## C1: trigger resolution order across a batch -/

/-- C1 (counterexample): with the rules
`[{include: [a], trigger: [x, y]}, {include: [b], trigger: [y, z]}]` and a
batch touching both `a` and `b`, the batch that lists the `b`-path first
resolves to `[y, z, x]`, not `[x, y, z]`: the resolved trigger list is not
independent of the order of the paths inside the batch. -/
theorem batch_order_counterexample :
    Watcher.triggersForFiles fs1 w1 ["/r/b/g.go", "/r/a/f.go"] = ["y", "z", "x"] ∧
    (["y", "z", "x"] : List String) ≠ ["x", "y", "z"] := by
  constructor
  · decide
  · decide

/-- C1 (amended): trigger-name lists are flattened per changed path in batch
order, with rule-declaration order within each path, then deduplicated by
first occurrence: the batch touching `a` before `b` resolves to `[x, y, z]`
(first-occurrence dedup of `y`), while the reversed batch resolves to
`[y, z, x]`. -/
theorem batch_order_flatten :
    Watcher.triggersForFiles fs1 w1 ["/r/a/f.go", "/r/b/g.go"] = ["x", "y", "z"] ∧
    Watcher.triggersForFiles fs1 w1 ["/r/b/g.go", "/r/a/f.go"] = ["y", "z", "x"] := by
  constructor
  · decide
  · decide

/-! ## C10: a rule with no trigger names is inert -/

/-- C10: a file-trigger rule whose trigger-name list is empty is inert: its
`watchedPaths` is empty whatever its include patterns, `Matches` rejects
every path, and removing the rule from any configuration leaves
`WatchedPaths` unchanged. -/
theorem empty_triggers_inert (fs : FileSystem) (t : FileTrigger) (root : String)
    (h : t.Triggers = []) :
    FileTrigger.watchedPaths fs t root = [] ∧
    (∀ p, FileTrigger.Matches fs t root p = false) ∧
    (∀ (c : Config) (d : String) (l₁ l₂ : List FileTrigger),
      Watcher.WatchedPaths fs ⟨d, { c with FileTriggers := l₁ ++ t :: l₂ }⟩
        = Watcher.WatchedPaths fs ⟨d, { c with FileTriggers := l₁ ++ l₂ }⟩) := by
  have hw : ∀ r, FileTrigger.watchedPaths fs t r = [] := by
    intro r
    simp [FileTrigger.watchedPaths, h]
  refine ⟨hw root, ?_, ?_⟩
  · intro p
    simp [FileTrigger.Matches, hw root]
  · intro c d l₁ l₂
    simp only [Watcher.WatchedPaths]
    rw [flattenWatched_append, flattenWatched_append,
        show flattenWatched fs d (t :: l₂)
          = FileTrigger.watchedPaths fs t d ++ flattenWatched fs d l₂ from rfl,
        hw d, List.nil_append]

/-- Witness for C10: the rule `{include: [a], trigger: []}` watches nothing
and matches nothing on the concrete fixture. -/
theorem empty_triggers_inert_witness :
    FileTrigger.watchedPaths fs1 rule10 "/r" = [] ∧
    FileTrigger.Matches fs1 rule10 "/r" "/r/a/f.go" = false :=
  ⟨(empty_triggers_inert fs1 rule10 "/r" rfl).1,
   (empty_triggers_inert fs1 rule10 "/r" rfl).2.1 "/r/a/f.go"⟩

/-! ## C9: the watch set grows monotonically -/

theorem reloadAux_added_mem (latest : List String) :
    ∀ (watched : List String) (q : String),
      q ∈ (reloadAux watched latest).1 ↔ (q ∈ latest ∧ q ∉ watched) := by
  induction latest with
  | nil => simp [reloadAux]
  | cons p rest ih =>
    intro watched q
    simp only [reloadAux]
    by_cases hc : watched.contains p = true
    · have hp : p ∈ watched := by simpa using hc
      rw [if_pos hc, ih]
      simp only [List.mem_cons]
      constructor
      · rintro ⟨hq, hnw⟩
        exact ⟨Or.inr hq, hnw⟩
      · rintro ⟨hq | hq, hnw⟩
        · exact absurd hp (hq ▸ hnw)
        · exact ⟨hq, hnw⟩
    · have hp : p ∉ watched := by simpa using hc
      rw [if_neg hc]
      simp only [List.mem_cons, ih]
      constructor
      · rintro (rfl | ⟨hq, hnw⟩)
        · exact ⟨Or.inl rfl, hp⟩
        · exact ⟨Or.inr hq, fun hqw => hnw (List.mem_append.mpr (Or.inl hqw))⟩
      · rintro ⟨hq | hq, hnw⟩
        · exact Or.inl hq
        · by_cases hqp : q = p
          · exact Or.inl hqp
          · refine Or.inr ⟨hq, ?_⟩
            intro hmem
            rcases List.mem_append.mp hmem with hm | hm
            · exact hnw hm
            · exact hqp (List.mem_singleton.mp hm)

theorem reloadAux_watched_mono (latest : List String) :
    ∀ (watched : List String) (q : String),
      q ∈ watched → q ∈ (reloadAux watched latest).2 := by
  induction latest with
  | nil =>
    intro watched q h
    simpa [reloadAux] using h
  | cons p rest ih =>
    intro watched q h
    simp only [reloadAux]
    by_cases hc : watched.contains p = true
    · rw [if_pos hc]
      exact ih watched q h
    · rw [if_neg hc]
      exact ih (watched ++ [p]) q (List.mem_append.mpr (Or.inl h))

theorem maintainerRun_append (w : Watcher) (l₁ l₂ : List FileSystem) :
    ∀ s, maintainerRun w s (l₁ ++ l₂) = maintainerRun w (maintainerRun w s l₁) l₂ := by
  induction l₁ with
  | nil => intro s; rfl
  | cons fs rest ih =>
    intro s
    simp only [List.cons_append, maintainerRun]
    exact ih _

theorem maintainerRun_mono (w : Watcher) (snaps : List FileSystem) :
    ∀ (s : List String) (q : String), q ∈ s → q ∈ maintainerRun w s snaps := by
  induction snaps with
  | nil => intro s q h; exact h
  | cons fs rest ih =>
    intro s q h
    exact ih _ q (reloadAux_watched_mono (Watcher.WatchedPaths fs w) s q h)

/-- C9: the watch set grows monotonically for the lifetime of a run: a path
recorded as watched after any sequence of maintainer ticks is still recorded
after any further ticks (entries are never removed, whatever the later
filesystem snapshots report), and the paths a tick registers are exactly the
latest resolved paths that were not previously recorded. -/
theorem watchSet_monotone (w : Watcher) (init : List String)
    (snaps more : List FileSystem) (p q : String) (watched latest : List String)
    (hp : p ∈ maintainerRun w init snaps) :
    p ∈ maintainerRun w init (snaps ++ more) ∧
    (q ∈ (reloadAux watched latest).1 ↔ (q ∈ latest ∧ q ∉ watched)) := by
  constructor
  · rw [maintainerRun_append]
    exact maintainerRun_mono w more _ p hp
  · exact reloadAux_added_mem latest watched q

/-- Witness for C9: on the two-rule fixture, the initially watched `/r/x`
survives a tick that resolves a disjoint watch set, and a fresh path is
reported as added exactly because it was not previously recorded. -/
theorem watchSet_monotone_witness :
    "/r/x" ∈ maintainerRun w1 ["/r/x"] ([] ++ [fs1]) ∧
    ("/x" ∈ (reloadAux ["/r/x"] ["/x"]).1 ↔ ("/x" ∈ ["/x"] ∧ "/x" ∉ ["/r/x"])) :=
  watchSet_monotone w1 ["/r/x"] [] [fs1] "/r/x" "/x" ["/r/x"] ["/x"] (by decide)

end Gowatch

namespace Gowatch

/-! ## C2: exclusion is by leading-substring, not path-prefix -/

theorem strStartsWith_refl (s : String) : strStartsWith s s = true := by
  simp [strStartsWith, List.isPrefixOf_iff_prefix]

/-- C2 (counterexample): with the real file `/r/ven` matched by the exclude
patterns and the directory `/r/vendor` matched by the includes, the include
match `/r/vendor` is removed from the resolved watch set even though it
neither equals the only exclude match `/r/ven` nor has it as a path-prefix
(`/r/ven` is not a directory of `/r/vendor`): removal is decided by a plain
leading-substring test. -/
theorem exclude_prefix_counterexample :
    findAbsolutes fs2 ["/r/vendor"] ["/r/ven"] = [] ∧
    expandPatterns fs2 (getAbsolutePatterns ["/r/vendor"]) = ["/r/vendor"] ∧
    expandPatterns fs2 (getAbsolutePatterns ["/r/ven"]) = ["/r/ven"] ∧
    ("/r/vendor" : String) ≠ "/r/ven" ∧
    specPathPrefixOf "/r/ven" "/r/vendor" = false := by
  refine ⟨by decide, by decide, by decide, by decide, by decide⟩

/-- C2 (amended): an include-matched path is removed from the resolved watch
set exactly when some exclude match is a leading substring of it (equality
included, but the boundary need not be a path separator); in particular any
path with the string `/r/vendor/` as a leading substring — every path under
`/r/vendor` — is absent whenever `/r/vendor/` is among the exclude
matches. -/
theorem exclude_leading_substring (fs : FileSystem) (inc exc : List String) (i p : String) :
    (i ∈ findAbsolutes fs inc exc ↔
      (i ∈ expandPatterns fs (getAbsolutePatterns inc) ∧
        ∀ e ∈ expandPatterns fs (getAbsolutePatterns exc), strStartsWith i e = false)) ∧
    ("/r/vendor/" ∈ expandPatterns fs (getAbsolutePatterns exc) →
      strStartsWith p "/r/vendor/" = true →
      p ∉ findAbsolutes fs inc exc) := by
  have cond : ∀ (E : List String) (j : String),
      (!(E.contains j) && !(substr j E)) = true ↔ (∀ e ∈ E, strStartsWith j e = false) := by
    intro E j
    simp only [Bool.and_eq_true, Bool.not_eq_true', substr, List.any_eq_false]
    constructor
    · rintro ⟨_, hs⟩ e he
      exact Bool.eq_false_iff.mpr (hs e he)
    · intro h
      constructor
      · by_contra hc
        have hj : j ∈ E := by
          have : E.contains j = true := by
            cases hcv : E.contains j with
            | true => rfl
            | false => exact absurd hcv hc
          simpa using this
        have := h j hj
        rw [strStartsWith_refl j] at this
        exact Bool.true_eq_false.mp this
      · intro e he
        simp [h e he]
  have char : ∀ j : String, j ∈ findAbsolutes fs inc exc ↔
      (j ∈ expandPatterns fs (getAbsolutePatterns inc) ∧
        ∀ e ∈ expandPatterns fs (getAbsolutePatterns exc), strStartsWith j e = false) := by
    intro j
    unfold findAbsolutes diff
    rw [List.mem_filter, cond]
  refine ⟨char i, ?_⟩
  intro hv hpre hmem
  have := ((char p).mp hmem).2 "/r/vendor/" hv
  rw [hpre] at this
  exact Bool.true_eq_false.mp this

/-- Witness for C2 (amended): on a filesystem where `/r/**` matches the tree
under `/r` and the exclude pattern `/r/vendor/` matches the vendor
directory, the vendored file `/r/vendor/x.go` is absent from the resolved
watch set. -/
theorem exclude_leading_substring_witness :
    "/r/vendor/x.go" ∉ findAbsolutes fs2b ["/r/**"] ["/r/vendor/"] :=
  (exclude_leading_substring fs2b ["/r/**"] ["/r/vendor/"] "/r/vendor/x.go" "/r/vendor/x.go").2
    (by decide) (by decide)

/-! ## C6: the debounce window produces one dispatch per window -/

theorem watchLoopRun_events (fs : FileSystem) (w : Watcher) (names : List String) :
    ∀ s : LoopState, watchLoopRun fs w s (eventInputs names)
      = ⟨s.eventsBuffer ++ names, s.timerArmed || !names.isEmpty, s.dispatches⟩ := by
  induction names with
  | nil =>
    intro s
    simp [watchLoopRun, eventInputs]
  | cons n rest ih =>
    intro s
    calc watchLoopRun fs w s (eventInputs (n :: rest))
        = watchLoopRun fs w ⟨s.eventsBuffer ++ [n], true, s.dispatches⟩ (eventInputs rest) := rfl
      _ = ⟨s.eventsBuffer ++ [n] ++ rest, true || !rest.isEmpty, s.dispatches⟩ := ih _
      _ = ⟨s.eventsBuffer ++ n :: rest, s.timerArmed || !(n :: rest).isEmpty, s.dispatches⟩ := by
          simp

theorem watchLoop_window (fs : FileSystem) (w : Watcher) (d : List (List String))
    (ns : List String) (hn : ns ≠ []) (ht : Watcher.triggersForFiles fs w ns ≠ []) :
    watchLoopRun fs w ⟨[], false, d⟩ (eventInputs ns ++ [LoopInput.timerFires])
      = ⟨[], false, d ++ [ns]⟩ := by
  unfold watchLoopRun
  rw [List.foldl_append]
  rw [show List.foldl (watchLoopStep fs w) ⟨[], false, d⟩ (eventInputs ns)
      = watchLoopRun fs w ⟨[], false, d⟩ (eventInputs ns) from rfl,
    watchLoopRun_events]
  have harm : (false || !ns.isEmpty) = true := by
    simp [List.isEmpty_iff, hn]
  simp only [List.nil_append, harm]
  simp [watchLoopStep, ht]

/-- C6: a window of raw non-chmod events that arrive before the flush timer
fires (armed by the first of them, never reset by the rest) produces exactly
one dispatch whose batch is exactly those events' paths, provided the batch
resolves to at least one trigger; a second burst arriving after the flush
produces a second, independent dispatch. -/
theorem debounce_two_windows (fs : FileSystem) (w : Watcher) (ns₁ ns₂ : List String)
    (ht1 : Watcher.triggersForFiles fs w ns₁ ≠ [])
    (ht2 : Watcher.triggersForFiles fs w ns₂ ≠ []) :
    (watchLoopRun fs w initLoopState (eventInputs ns₁ ++ [LoopInput.timerFires])).dispatches
      = [ns₁] ∧
    (watchLoopRun fs w initLoopState
        ((eventInputs ns₁ ++ [LoopInput.timerFires])
          ++ (eventInputs ns₂ ++ [LoopInput.timerFires]))).dispatches
      = [ns₁, ns₂] := by
  have hn1 : ns₁ ≠ [] := by
    intro h
    exact ht1 (by rw [h]; rfl)
  have hn2 : ns₂ ≠ [] := by
    intro h
    exact ht2 (by rw [h]; rfl)
  have h1 : watchLoopRun fs w initLoopState (eventInputs ns₁ ++ [LoopInput.timerFires])
      = ⟨[], false, [ns₁]⟩ := by
    have := watchLoop_window fs w [] ns₁ hn1 ht1
    simpa [initLoopState] using this
  constructor
  · rw [h1]
  · unfold watchLoopRun
    rw [List.foldl_append]
    rw [show List.foldl (watchLoopStep fs w) initLoopState
          (eventInputs ns₁ ++ [LoopInput.timerFires])
        = watchLoopRun fs w initLoopState (eventInputs ns₁ ++ [LoopInput.timerFires]) from rfl,
      h1]
    rw [show List.foldl (watchLoopStep fs w) ⟨[], false, [ns₁]⟩
          (eventInputs ns₂ ++ [LoopInput.timerFires])
        = watchLoopRun fs w ⟨[], false, [ns₁]⟩ (eventInputs ns₂ ++ [LoopInput.timerFires])
        from rfl,
      watchLoop_window fs w [ns₁] ns₂ hn2 ht2]
    rfl

/-- Witness for C6: on the two-rule fixture, two events inside the first
window produce the single batch of both paths, and a later event produces a
second batch. -/
theorem debounce_two_windows_witness :
    (watchLoopRun fs1 w1 initLoopState
        (eventInputs ["/r/a/f.go", "/r/a/g.go"] ++ [LoopInput.timerFires])).dispatches
      = [["/r/a/f.go", "/r/a/g.go"]] ∧
    (watchLoopRun fs1 w1 initLoopState
        ((eventInputs ["/r/a/f.go", "/r/a/g.go"] ++ [LoopInput.timerFires])
          ++ (eventInputs ["/r/b/g.go"] ++ [LoopInput.timerFires]))).dispatches
      = [["/r/a/f.go", "/r/a/g.go"], ["/r/b/g.go"]] :=
  debounce_two_windows fs1 w1 ["/r/a/f.go", "/r/a/g.go"] ["/r/b/g.go"]
    (by decide) (by decide)

end Gowatch

namespace Gowatch

/-! ## C4 and C5: what one validation run detects -/

theorem unresolvedTriggerList_eq_nil_iff (c : Config) :
    unresolvedTriggerList c = [] ↔
      ∀ t ∈ Config.allTriggers c,
        actionDefined c (parseTriggerName t).1 = true
          ∨ serviceDefined c (parseTriggerName t).1 = true := by
  unfold unresolvedTriggerList
  rw [List.filter_eq_nil_iff]
  constructor
  · intro h t ht
    have hmem : (parseTriggerName t).1
        ∈ (uniqueStringSlice (Config.allTriggers c)).map (fun s => (parseTriggerName s).1) := by
      apply List.mem_map_of_mem
      unfold uniqueStringSlice
      exact (mem_uniqueOrderedAux [] _ _).mpr (Or.inr ht)
    have hno := h _ hmem
    by_cases ha : actionDefined c (parseTriggerName t).1 = true
    · exact Or.inl ha
    · by_cases hs : serviceDefined c (parseTriggerName t).1 = true
      · exact Or.inr hs
      · exact absurd (by simp [Bool.not_eq_true] at ha hs; simp [ha, hs]) hno
  · intro h x hx
    rcases List.mem_map.mp hx with ⟨t, ht, rfl⟩
    have ht' : t ∈ Config.allTriggers c := by
      unfold uniqueStringSlice at ht
      rcases (mem_uniqueOrderedAux [] _ _).mp ht with hcontra | hmem
      · exact absurd hcontra (List.not_mem_nil t)
      · exact hmem
    rcases h t ht' with ha | hs
    · simp [ha]
    · simp [hs]

theorem dupDefinitionList_eq_nil_iff (c : Config) :
    dupDefinitionList c = [] ↔
      ∀ s ∈ c.Services.map Prod.fst, actionDefined c s = false := by
  unfold dupDefinitionList uniqueStringSliceOrdered
  rw [uniqueOrderedAux_eq_nil, List.filter_eq_nil_iff]
  simp [Bool.not_eq_true]

theorem invalidNameList_eq_nil_iff (c : Config) :
    invalidNameList c = [] ↔
      ∀ n ∈ c.Actions.map Prod.fst ++ c.Services.map Prod.fst,
        strContains n ':' = false := by
  unfold invalidNameList uniqueStringSlice
  rw [uniqueOrderedAux_eq_nil, List.append_eq_nil, List.filter_eq_nil_iff,
    List.filter_eq_nil_iff]
  constructor
  · rintro ⟨h1, h2⟩ n hn
    rcases List.mem_append.mp hn with h | h
    · simpa [Bool.not_eq_true] using h1 n h
    · simpa [Bool.not_eq_true] using h2 n h
  · intro h
    constructor
    · intro a ha
      simp [h a (List.mem_append.mpr (Or.inl ha))]
    · intro s hs
      simp [h s (List.mem_append.mpr (Or.inr hs))]

/-- C4 (amended): one validation run checks the three violation categories in
a fixed order — unresolved trigger references, names defined as both action
and service, names containing the verb separator — reporting all violations
of the first failing category together in one error and stopping there
(violations of the later categories are not included in that outcome);
validation succeeds exactly when no violation of any category exists. -/
theorem validate_first_category (c : Config) :
    Config.Validate c =
      (if unresolvedTriggerList c = [] then
        if dupDefinitionList c = [] then
          if invalidNameList c = [] then none
          else some (ValidationError.invalidNames (invalidNameList c))
        else some (ValidationError.duplicateDefinitions (dupDefinitionList c))
      else some (ValidationError.unresolvedTriggers (unresolvedTriggerList c))) ∧
    (Config.Validate c = none ↔
      (∀ t ∈ Config.allTriggers c,
        actionDefined c (parseTriggerName t).1 = true
          ∨ serviceDefined c (parseTriggerName t).1 = true) ∧
      (∀ s ∈ c.Services.map Prod.fst, actionDefined c s = false) ∧
      (∀ n ∈ c.Actions.map Prod.fst ++ c.Services.map Prod.fst,
        strContains n ':' = false)) := by
  have hmain : Config.Validate c =
      (if unresolvedTriggerList c = [] then
        if dupDefinitionList c = [] then
          if invalidNameList c = [] then none
          else some (ValidationError.invalidNames (invalidNameList c))
        else some (ValidationError.duplicateDefinitions (dupDefinitionList c))
      else some (ValidationError.unresolvedTriggers (unresolvedTriggerList c))) := by
    by_cases h1 : unresolvedTriggerList c = [] <;>
      by_cases h2 : dupDefinitionList c = [] <;>
        by_cases h3 : invalidNameList c = [] <;>
          simp [Config.Validate, validateTriggerNames, validateServiceUniqueness,
            validateActionNames, h1, h2, h3]
  refine ⟨hmain, ?_⟩
  rw [hmain, ← unresolvedTriggerList_eq_nil_iff, ← dupDefinitionList_eq_nil_iff,
    ← invalidNameList_eq_nil_iff]
  by_cases h1 : unresolvedTriggerList c = [] <;>
    by_cases h2 : dupDefinitionList c = [] <;>
      by_cases h3 : invalidNameList c = [] <;>
        simp [h1, h2, h3]

/-- Witness for C4 (amended): on the two-violation configuration the first
failing category (the unresolved trigger) is the reported outcome. -/
theorem validate_first_category_witness :
    Config.Validate cfg4b =
      (if unresolvedTriggerList cfg4b = [] then
        if dupDefinitionList cfg4b = [] then
          if invalidNameList cfg4b = [] then none
          else some (ValidationError.invalidNames (invalidNameList cfg4b))
        else some (ValidationError.duplicateDefinitions (dupDefinitionList cfg4b))
      else some (ValidationError.unresolvedTriggers (unresolvedTriggerList cfg4b))) :=
  (validate_first_category cfg4b).1

/-- C4 (counterexample): `cfg4a` violates only the unresolved-trigger rule
while `cfg4b` additionally has the invalid action name `a:b`, yet one run of
validation returns the identical single outcome for both — the reported
outcome does not carry the name violation, so not every violation is
reported together in one run. -/
theorem validate_single_category_counterexample :
    Config.Validate cfg4a = Config.Validate cfg4b ∧
    Config.Validate cfg4b = some (.unresolvedTriggers ["missing"]) ∧
    validateActionNames cfg4a = none ∧
    validateActionNames cfg4b = some (.invalidNames ["a:b"]) := by
  refine ⟨by decide, by decide, by decide, by decide⟩

/-- C5 (amended): validation strips the verb suffix and only checks that the
base name resolves, so a trigger reference carrying an invalid verb (any
verb on an action, or any verb other than `stop` on a service) passes
validation; the violation surfaces only when the trigger is run, as the
verb-not-supported error `Run` returns at dispatch time. -/
theorem verb_checked_at_run_only (c : Config) (w : Watcher) (t : String) :
    (validateTriggerNames c = none ↔
      ∀ s ∈ Config.allTriggers c,
        actionDefined c (parseTriggerName s).1 = true
          ∨ serviceDefined c (parseTriggerName s).1 = true) ∧
    (actionDefined w.Config (parseTriggerName t).1 = true →
      (parseTriggerName t).2 ≠ "" →
      Watcher.Run w t = .verbNotSupported (parseTriggerName t).2) ∧
    (actionDefined w.Config (parseTriggerName t).1 = false →
      serviceDefined w.Config (parseTriggerName t).1 = true →
      (parseTriggerName t).2 ≠ "stop" → (parseTriggerName t).2 ≠ "" →
      Watcher.Run w t = .verbNotSupported (parseTriggerName t).2) := by
  refine ⟨?_, ?_, ?_⟩
  · rw [← unresolvedTriggerList_eq_nil_iff]
    unfold validateTriggerNames
    by_cases h : unresolvedTriggerList c = [] <;> simp [h]
  · intro h1 h2
    unfold Watcher.Run
    simp only []
    rw [if_pos h1, if_pos h2]
  · intro h1 h2 h3 h4
    unfold Watcher.Run
    simp only []
    rw [if_neg (by simp [h1]), if_pos h2, if_neg (by simp [h3]), if_pos h4]

/-- Witness for C5 (amended): `build:stop` — a verb on the action `build` —
resolves to the dispatch-time verb-not-supported error. -/
theorem verb_checked_at_run_only_witness :
    Watcher.Run w5 "build:stop" = .verbNotSupported (parseTriggerName "build:stop").2 :=
  (verb_checked_at_run_only cfg5 w5 "build:stop").2.1 (by decide) (by decide)

/-- C5 (counterexample): the configuration whose file trigger references
`build:stop` — a verb suffix on the action `build` — passes validation
untouched (`Validate` returns no error), and the violation only appears as
the error `Run` returns when the trigger is dispatched: it is not detected
as a configuration-time error. -/
theorem verb_unchecked_counterexample :
    Config.Validate cfg5 = none ∧
    "build:stop" ∈ Config.allTriggers cfg5 ∧
    parseTriggerName "build:stop" = ("build", "stop") ∧
    actionDefined cfg5 "build" = true ∧
    Watcher.Run w5 "build:stop" = .verbNotSupported "stop" := by
  refine ⟨by decide, by decide, by decide, by decide, by decide⟩

end Gowatch

namespace Gowatch

/-! ## C3: path reduction -/

/-- Proof helper: the group the map stores under key `d` (the first matching
entry of the association list), `[]` when the key is absent. -/
def lookupGroup : List (String × List String) → String → List String
  | [], _ => []
  | (k, v) :: rest, d => if k = d then v else lookupGroup rest d

/-- Proof helper: the keys of the grouping map, in insertion order. -/
def groupKeys (m : List (String × List String)) : List String := m.map Prod.fst

theorem lookupGroup_insertGroup (m : List (String × List String)) (d i d' : String) :
    lookupGroup (insertGroup m d i) d'
      = if d' = d then lookupGroup m d' ++ [i] else lookupGroup m d' := by
  induction m with
  | nil =>
    by_cases h : d' = d
    · subst h
      simp [insertGroup, lookupGroup]
    · have h2 : ¬ d = d' := fun hh => h hh.symm
      simp [insertGroup, lookupGroup, h, h2]
  | cons kv rest ih =>
    obtain ⟨k, v⟩ := kv
    simp only [insertGroup]
    by_cases hk : k = d
    · subst hk
      rw [if_pos rfl]
      by_cases h' : k = d'
      · subst h'
        simp [lookupGroup]
      · have h2 : ¬ d' = k := fun hh => h' hh.symm
        simp [lookupGroup, h', h2]
    · rw [if_neg hk]
      by_cases h' : k = d'
      · subst h'
        simp only [lookupGroup, if_neg hk]
        simp
      · simp only [lookupGroup, if_neg h']
        exact ih

theorem groupKeys_cons (k : String) (v : List String) (rest : List (String × List String)) :
    groupKeys ((k, v) :: rest) = k :: groupKeys rest := rfl

theorem groupKeys_insertGroup (m : List (String × List String)) (d i : String) :
    groupKeys (insertGroup m d i)
      = if d ∈ groupKeys m then groupKeys m else groupKeys m ++ [d] := by
  induction m with
  | nil => simp [insertGroup, groupKeys]
  | cons kv rest ih =>
    obtain ⟨k, v⟩ := kv
    simp only [insertGroup]
    by_cases hk : k = d
    · subst hk
      rw [if_pos rfl]
      simp only [groupKeys_cons]
      rw [if_pos (List.mem_cons_self k (groupKeys rest))]
    · rw [if_neg hk]
      have hkd : ¬ d = k := fun hh => hk hh.symm
      have hmem : d ∈ groupKeys ((k, v) :: rest) ↔ d ∈ groupKeys rest := by
        rw [groupKeys_cons, List.mem_cons]
        exact ⟨fun h => h.resolve_left hkd, Or.inr⟩
      by_cases hd : d ∈ groupKeys rest
      · rw [if_pos (hmem.mpr hd), groupKeys_cons, groupKeys_cons, ih, if_pos hd]
      · rw [if_neg (fun hh => hd (hmem.mp hh)), groupKeys_cons, groupKeys_cons, ih,
          if_neg hd, List.cons_append]

theorem lookupGroup_foldl (fs : FileSystem) (input : List String) :
    ∀ (m : List (String × List String)) (d : String),
      lookupGroup (input.foldl (fun m i => insertGroup m (dirOf fs i) i) m) d
        = lookupGroup m d ++ input.filter (fun i => dirOf fs i == d) := by
  induction input with
  | nil => simp
  | cons i rest ih =>
    intro m d
    simp only [List.foldl_cons, List.filter_cons]
    rw [ih, lookupGroup_insertGroup]
    by_cases h : d = dirOf fs i
    · rw [if_pos h]
      rw [show (dirOf fs i == d) = true from by simp [h]]
      simp
    · rw [if_neg h]
      rw [show (dirOf fs i == d) = false from by
        simp only [beq_eq_false_iff_ne, ne_eq]
        exact fun hh => h hh.symm]
      simp

theorem mem_groupKeys_foldl (fs : FileSystem) (input : List String) :
    ∀ (m : List (String × List String)) (d : String),
      d ∈ groupKeys (input.foldl (fun m i => insertGroup m (dirOf fs i) i) m)
        ↔ d ∈ groupKeys m ∨ ∃ i ∈ input, dirOf fs i = d := by
  induction input with
  | nil => simp
  | cons i rest ih =>
    intro m d
    simp only [List.foldl_cons]
    rw [ih, groupKeys_insertGroup]
    by_cases h : dirOf fs i ∈ groupKeys m
    · rw [if_pos h]
      simp only [List.mem_cons]
      constructor
      · rintro (hm | ⟨j, hj, hdj⟩)
        · exact Or.inl hm
        · exact Or.inr ⟨j, Or.inr hj, hdj⟩
      · rintro (hm | ⟨j, rfl | hj', hdj⟩)
        · exact Or.inl hm
        · exact Or.inl (hdj ▸ h)
        · exact Or.inr ⟨j, hj', hdj⟩
    · rw [if_neg h]
      simp only [List.mem_append, List.mem_singleton]
      constructor
      · rintro ((hm | hd) | ⟨j, hj, hdj⟩)
        · exact Or.inl hm
        · exact Or.inr ⟨i, List.mem_cons_self i rest, hd.symm⟩
        · exact Or.inr ⟨j, List.mem_cons_of_mem _ hj, hdj⟩
      · rintro (hm | ⟨j, hj, hdj⟩)
        · exact Or.inl (Or.inl hm)
        · rcases List.mem_cons.mp hj with rfl | hj'
          · exact Or.inl (Or.inr hdj.symm)
          · exact Or.inr ⟨j, hj', hdj⟩

theorem groupKeys_nodup_foldl (fs : FileSystem) (input : List String) :
    ∀ m : List (String × List String),
      (groupKeys m).Nodup →
      (groupKeys (input.foldl (fun m i => insertGroup m (dirOf fs i) i) m)).Nodup := by
  induction input with
  | nil => intro m h; exact h
  | cons i rest ih =>
    intro m h
    simp only [List.foldl_cons]
    apply ih
    rw [groupKeys_insertGroup]
    by_cases hd : dirOf fs i ∈ groupKeys m
    · rw [if_pos hd]; exact h
    · rw [if_neg hd]
      rw [List.nodup_append]
      exact ⟨h, List.nodup_singleton _, by simpa using hd⟩

theorem mem_of_lookupGroup (m : List (String × List String)) (d : String)
    (h : d ∈ groupKeys m) : (d, lookupGroup m d) ∈ m := by
  induction m with
  | nil => simp [groupKeys] at h
  | cons kv rest ih =>
    obtain ⟨k, v⟩ := kv
    by_cases hk : k = d
    · subst hk
      simp [lookupGroup]
    · have hd : d ∈ groupKeys rest := by
        rcases List.mem_cons.mp h with hh | hh
        · exact absurd hh.symm hk
        · exact hh
      simp only [lookupGroup, if_neg hk]
      exact List.mem_cons_of_mem _ (ih hd)

theorem entry_eq_lookupGroup (m : List (String × List String))
    (hnd : (groupKeys m).Nodup) (d : String) (v : List String)
    (h : (d, v) ∈ m) : v = lookupGroup m d := by
  induction m with
  | nil => simp at h
  | cons kv rest ih =>
    obtain ⟨k, vv⟩ := kv
    have hnd' := List.nodup_cons.mp (groupKeys_cons k vv rest ▸ hnd)
    rcases List.mem_cons.mp h with heq | hmem
    · cases heq
      simp [lookupGroup]
    · by_cases hk : k = d
      · subst hk
        exfalso
        exact hnd'.1 (List.mem_map_of_mem Prod.fst hmem)
      · simp only [lookupGroup, if_neg hk]
        exact ih hnd'.2 hmem

end Gowatch

namespace Gowatch

theorem reducePaths_mem (fs : FileSystem) (input : List String) (x : String) :
    x ∈ reducePaths fs input ↔
      (1 < (input.filter (fun i => dirOf fs i == x)).length ∨
        (x ∈ input ∧ (input.filter (fun i => dirOf fs i == dirOf fs x)).length = 1)) := by
  have hlook : ∀ d, lookupGroup (buildGroups fs input) d
      = input.filter (fun i => dirOf fs i == d) := by
    intro d
    unfold buildGroups
    rw [lookupGroup_foldl]
    simp [lookupGroup]
  have hnodup : (groupKeys (buildGroups fs input)).Nodup := by
    unfold buildGroups
    exact groupKeys_nodup_foldl fs input [] (by simp [groupKeys])
  have hkeys : ∀ d, d ∈ groupKeys (buildGroups fs input) ↔ ∃ i ∈ input, dirOf fs i = d := by
    intro d
    unfold buildGroups
    rw [mem_groupKeys_foldl]
    simp [groupKeys]
  unfold reducePaths
  rw [List.mem_map]
  constructor
  · rintro ⟨⟨d, v⟩, hmem, hfx⟩
    have hveq : v = input.filter (fun i => dirOf fs i == d) :=
      (entry_eq_lookupGroup _ hnodup d v hmem).trans (hlook d)
    dsimp only at hfx
    by_cases hlen : 1 < v.length
    · rw [if_pos hlen] at hfx
      subst hfx
      left
      rw [← hveq]
      exact hlen
    · rw [if_neg hlen] at hfx
      have hd : d ∈ groupKeys (buildGroups fs input) :=
        List.mem_map_of_mem Prod.fst hmem
      have hvne : v ≠ [] := by
        rcases (hkeys d).mp hd with ⟨i, hi, hdi⟩
        rw [hveq]
        intro hnil
        have hmemf : i ∈ input.filter (fun i => dirOf fs i == d) :=
          List.mem_filter.mpr ⟨hi, by simp [hdi]⟩
        rw [hnil] at hmemf
        exact List.not_mem_nil _ hmemf
      obtain ⟨a, hva⟩ : ∃ a, v = [a] := by
        cases v with
        | nil => exact absurd rfl hvne
        | cons a t =>
          cases t with
          | nil => exact ⟨a, rfl⟩
          | cons b t' =>
            exfalso
            apply hlen
            simp only [List.length_cons]
            omega
      subst hva
      simp only [List.headD_cons] at hfx
      subst hfx
      right
      have hain : a ∈ input ∧ (dirOf fs a == d) = true := by
        have hmen : a ∈ input.filter (fun i => dirOf fs i == d) := by
          rw [← hveq]
          exact List.mem_singleton_self a
        exact List.mem_filter.mp hmen
      have hda : dirOf fs a = d := by simpa using hain.2
      refine ⟨hain.1, ?_⟩
      rw [hda, ← hveq]
      rfl
  · rintro (hlen | ⟨hx, hone⟩)
    · have hne : input.filter (fun i => dirOf fs i == x) ≠ [] := by
        intro h
        rw [h] at hlen
        simp at hlen
      have hxk : x ∈ groupKeys (buildGroups fs input) := by
        rw [hkeys]
        rcases List.exists_mem_of_ne_nil _ hne with ⟨i, hi⟩
        have h2 := List.mem_filter.mp hi
        exact ⟨i, h2.1, by simpa using h2.2⟩
      refine ⟨(x, lookupGroup (buildGroups fs input) x), mem_of_lookupGroup _ x hxk, ?_⟩
      show (if 1 < (lookupGroup (buildGroups fs input) x).length then x
        else (lookupGroup (buildGroups fs input) x).headD "") = x
      rw [hlook x, if_pos hlen]
    · have hxf : x ∈ input.filter (fun i => dirOf fs i == dirOf fs x) :=
        List.mem_filter.mpr ⟨hx, by simp⟩
      have hfil : input.filter (fun i => dirOf fs i == dirOf fs x) = [x] := by
        rcases hc : input.filter (fun i => dirOf fs i == dirOf fs x) with _ | ⟨a, t⟩
        · rw [hc] at hxf
          exact absurd hxf (List.not_mem_nil x)
        · rw [hc] at hone hxf
          have ht : t = [] := by
            simp only [List.length_cons] at hone
            exact List.eq_nil_of_length_eq_zero (by omega)
          subst ht
          have hxa : x = a := by simpa using hxf
          subst hxa
          rfl
      have hdk : dirOf fs x ∈ groupKeys (buildGroups fs input) := by
        rw [hkeys]
        exact ⟨x, hx, rfl⟩
      refine ⟨(dirOf fs x, lookupGroup (buildGroups fs input) (dirOf fs x)),
        mem_of_lookupGroup _ _ hdk, ?_⟩
      show (if 1 < (lookupGroup (buildGroups fs input) (dirOf fs x)).length then dirOf fs x
        else (lookupGroup (buildGroups fs input) (dirOf fs x)).headD "") = x
      rw [hlook, hfil]
      simp

/-- C3: path reduction replaces a group of two or more matched paths sharing
the same immediate containing directory with that directory and keeps every
other matched path as-is (the membership characterization, over any
filesystem oracle and matched-path list); in particular, for the matched
files `/r/src/a.go`, `/r/src/b.go` and `/r/pkg/c.go` the resulting watch
set — the paths `Start` registers, which are the containing directories of
the reduced paths — is `{/r/src, /r/pkg}`. -/
theorem reducePaths_groups (fs : FileSystem) (input : List String) (x y : String) :
    (x ∈ reducePaths fs input ↔
      (1 < (input.filter (fun i => dirOf fs i == x)).length ∨
        (x ∈ input ∧ (input.filter (fun i => dirOf fs i == dirOf fs x)).length = 1))) ∧
    (y ∈ uniqueStringSlice (getDirs fs3
        (reducePaths fs3 ["/r/src/a.go", "/r/src/b.go", "/r/pkg/c.go"]))
      ↔ (y = "/r/src" ∨ y = "/r/pkg")) := by
  refine ⟨reducePaths_mem fs input x, ?_⟩
  rw [show uniqueStringSlice (getDirs fs3
      (reducePaths fs3 ["/r/src/a.go", "/r/src/b.go", "/r/pkg/c.go"]))
    = ["/r/src", "/r/pkg"] from by decide]
  simp

/-- Witness for C3: the collapsed directory `/r/src` is in the reduced set of
the three example files because two of them share it as containing
directory, and the registered watch set of the example is exactly
`{/r/src, /r/pkg}` at the sample point `/r/pkg`. -/
theorem reducePaths_groups_witness :
    ("/r/src" ∈ reducePaths fs3 ["/r/src/a.go", "/r/src/b.go", "/r/pkg/c.go"] ↔
      (1 < ((["/r/src/a.go", "/r/src/b.go", "/r/pkg/c.go"] : List String).filter
          (fun i => dirOf fs3 i == "/r/src")).length ∨
        ("/r/src" ∈ (["/r/src/a.go", "/r/src/b.go", "/r/pkg/c.go"] : List String) ∧
          ((["/r/src/a.go", "/r/src/b.go", "/r/pkg/c.go"] : List String).filter
            (fun i => dirOf fs3 i == dirOf fs3 "/r/src")).length = 1))) ∧
    ("/r/pkg" ∈ uniqueStringSlice (getDirs fs3
        (reducePaths fs3 ["/r/src/a.go", "/r/src/b.go", "/r/pkg/c.go"]))
      ↔ ("/r/pkg" = "/r/src" ∨ "/r/pkg" = "/r/pkg")) :=
  reducePaths_groups fs3 ["/r/src/a.go", "/r/src/b.go", "/r/pkg/c.go"] "/r/src" "/r/pkg"

end Gowatch
